import Mathlib

/-!
# Verification of the parcel ingestion pipeline (`scripts/download-parcels.js`)

A shallow embedding of the bulk parcel download script: the range planner in
`main`, the record transformer `transformFeature`, the retrying fetcher
`fetchWithRetry` / `fetchRange`, the batch upserter `upsertRows`, and the
pipelined coordinator `runPipeline`.  JavaScript numbers are modelled as
rationals (`ℚ`), JS attribute values as a small `JSVal` type whose `null`
constructor also stands for `undefined` (the script only ever distinguishes
them through `x || null` and `x != null`, which treat both alike), and the
asynchronous pipeline as an explicit event trace determined by the `await`
structure of the code.
-/

namespace Parcels

/-! ## Constants from the script -/

def RANGE_STEP : ℕ := 2500
def UPSERT_BATCH : ℕ := 500
def MAX_RETRIES : ℕ := 5
def UPSERT_RETRIES : ℕ := 3
def DEFAULT_MIN_ID : ℕ := 102079250
def MAX_ID : ℕ := 102241235

/-! ## Range planner

`main` builds the chunk list with

```js
const chunks = [];
for (let start = START_ID; start < MAX_ID; start += RANGE_STEP) {
  chunks.push({ start, end: Math.min(start + RANGE_STEP, MAX_ID) });
}
```

`buildChunks start maxId step` is that loop.  The JS loop diverges when
`step = 0`; the Lean function returns `[]` in that case (the guard `0 < step`
is needed for termination), and every claim about the planner assumes
`step > 0`. -/

def buildChunks (start maxId step : ℕ) : List (ℕ × ℕ) :=
  if _h : start < maxId ∧ 0 < step then
    (start, min (start + step) maxId) :: buildChunks (start + step) maxId step
  else
    []
termination_by maxId - start
decreasing_by omega

theorem buildChunks_eq_nil (start maxId step : ℕ) (h : ¬ start < maxId) :
    buildChunks start maxId step = [] := by
  rw [buildChunks]
  simp [h]

theorem buildChunks_eq_cons (start maxId step : ℕ) (h1 : start < maxId) (h2 : 0 < step) :
    buildChunks start maxId step =
      (start, min (start + step) maxId) :: buildChunks (start + step) maxId step := by
  rw [buildChunks]
  simp [h1, h2]

/-- Closed form for the `k`-th chunk produced by the planner loop. -/
theorem buildChunks_getElem? (step : ℕ) (h2 : 0 < step) :
    ∀ k start maxId, (buildChunks start maxId step)[k]? =
      if start + k * step < maxId then
        some (start + k * step, min (start + (k + 1) * step) maxId)
      else
        none := by
  intro k
  induction k with
  | zero =>
      intro start maxId
      by_cases h1 : start < maxId
      · rw [buildChunks_eq_cons start maxId step h1 h2]
        simp [h1, Nat.add_comm]
      · rw [buildChunks_eq_nil start maxId step h1]
        simp [h1]
  | succ k ih =>
      intro start maxId
      by_cases h1 : start < maxId
      · rw [buildChunks_eq_cons start maxId step h1 h2]
        rw [List.getElem?_cons_succ, ih (start + step) maxId]
        have harith : start + step + k * step = start + (k + 1) * step := by ring
        have harith2 : start + step + (k + 1) * step = start + (k + 1 + 1) * step := by ring
        rw [harith, harith2]
      · rw [buildChunks_eq_nil start maxId step h1]
        have : ¬ start + (k + 1) * step < maxId := by
          intro hc; exact h1 (by omega)
        simp [this]

/-- Claim C1. For every `minId < maxId` and `step > 0`, the range planner loop in
`main` produces the ordered sequence of half-open ranges
`{start = minId + k·step, end = min (minId + (k+1)·step) maxId}` for
`k = 0, 1, …` while `start < maxId`; consequently every range is non-empty of
width at most `step`, consecutive ranges are contiguous (`end k = start (k+1)`),
any earlier range ends at or before a later one starts (ascending,
non-overlapping), and the union of the ranges is exactly `[minId, maxId)`. -/
theorem rangePlanner_correct (minId maxId step : ℕ) (hlt : minId < maxId) (hstep : 0 < step) :
    ∀ cs : List (ℕ × ℕ), cs = buildChunks minId maxId step →
    (∀ k : ℕ, cs[k]? = if minId + k * step < maxId then
        some (minId + k * step, min (minId + (k + 1) * step) maxId) else none) ∧
    (∀ (k : ℕ) (s e : ℕ), cs[k]? = some (s, e) → s < e ∧ e - s ≤ step) ∧
    (∀ (k : ℕ) (s e s' e' : ℕ), cs[k]? = some (s, e) → cs[k + 1]? = some (s', e') → e = s') ∧
    (∀ (j k : ℕ) (s e s' e' : ℕ), j < k → cs[j]? = some (s, e) → cs[k]? = some (s', e') → e ≤ s') ∧
    (∀ x : ℕ, (∃ (k s e : ℕ), cs[k]? = some (s, e) ∧ s ≤ x ∧ x < e) ↔ (minId ≤ x ∧ x < maxId)) := by
  intro cs hcs
  subst hcs
  have hget := fun k => buildChunks_getElem? step hstep k minId maxId
  have hsome : ∀ k s e, (buildChunks minId maxId step)[k]? = some (s, e) →
      minId + k * step < maxId ∧ s = minId + k * step ∧
        e = min (minId + (k + 1) * step) maxId := by
    intro k s e hk
    have h := hget k
    by_cases hc : minId + k * step < maxId
    · rw [hk] at h
      simp [hc] at h
      exact ⟨hc, h.1, h.2⟩
    · rw [hk] at h
      simp [hc] at h
  refine ⟨hget, ?_, ?_, ?_, ?_⟩
  · intro k s e hk
    obtain ⟨hc, hs, he⟩ := hsome k s e hk
    subst hs he
    constructor
    · exact lt_min (by nlinarith) hc
    · have : min (minId + (k + 1) * step) maxId ≤ minId + (k + 1) * step := min_le_left _ _
      have harith : minId + (k + 1) * step = minId + k * step + step := by ring
      omega
  · intro k s e s' e' hk hk1
    obtain ⟨hc, hs, he⟩ := hsome k s e hk
    obtain ⟨hc', hs', he'⟩ := hsome (k + 1) s' e' hk1
    subst he hs'
    exact min_eq_left (le_of_lt hc')
  · intro j k s e s' e' hjk hj hk
    obtain ⟨hcj, hsj, hej⟩ := hsome j s e hj
    obtain ⟨hck, hsk, hek⟩ := hsome k s' e' hk
    subst hej hsk
    have h1 : minId + (j + 1) * step ≤ minId + k * step := by
      have : (j + 1) * step ≤ k * step := Nat.mul_le_mul_right step hjk
      omega
    exact le_trans (min_le_left _ _) h1
  · intro x
    constructor
    · rintro ⟨k, s, e, hk, hsx, hxe⟩
      obtain ⟨hc, hs, he⟩ := hsome k s e hk
      subst hs he
      refine ⟨le_trans (Nat.le_add_right _ _) hsx, lt_of_lt_of_le hxe (min_le_right _ _)⟩
    · rintro ⟨h1, h2⟩
      refine ⟨(x - minId) / step, minId + ((x - minId) / step) * step,
        min (minId + ((x - minId) / step + 1) * step) maxId, ?_, ?_, ?_⟩
      · have hc : minId + ((x - minId) / step) * step < maxId := by
          have hdiv : ((x - minId) / step) * step ≤ x - minId := Nat.div_mul_le_self _ _
          omega
        rw [hget]
        simp [hc]
      · have hdiv : ((x - minId) / step) * step ≤ x - minId := Nat.div_mul_le_self _ _
        omega
      · have hdiv2 : x - minId < ((x - minId) / step + 1) * step := by
          have h3 := Nat.div_add_mod (x - minId) step
          have h4 : (x - minId) % step < step := Nat.mod_lt _ hstep
          have h5 : ((x - minId) / step + 1) * step = (x - minId) / step * step + step := by ring
          have h6 : (x - minId) / step * step = step * ((x - minId) / step) := Nat.mul_comm _ _
          omega
        exact lt_min (by omega) h2

/-! ## JS values and the record transformer

`transformFeature` maps an ArcGIS feature `{attributes, geometry}` to a
Supabase row.  Attribute values are modelled by `JSVal`; `JSVal.null` stands
for both JS `null` and `undefined` (a missing attribute), which the script
never distinguishes: `x || null` yields `null` for both, and the loose
comparison `x != null` is `false` for both. -/

inductive JSVal where
  | null : JSVal
  | num : ℚ → JSVal
  | str : String → JSVal
  deriving DecidableEq, Repr

/-- JS truthiness for the values that can appear in an attribute set:
`null`/`undefined`, `0` and `""` are falsy. -/
def JSVal.truthy : JSVal → Bool
  | .null => false
  | .num q => decide (q ≠ 0)
  | .str s => decide (s ≠ "")

/-- JS `a || b`: `a` when truthy, otherwise `b`. -/
def jsOr (a b : JSVal) : JSVal := if a.truthy then a else b

/-- JS `String(v)` for a non-null value.  For the integral numbers that
`ASS_SQFT` actually holds this is the decimal rendering, which is the case the
script exercises; non-integral rationals are rendered as `num/den`, standing in
for JS float formatting. -/
def JSVal.stringOf : JSVal → String
  | .null => "null"
  | .num q => if q.den = 1 then toString q.num else toString q
  | .str s => s

structure Attributes where
  OBJECTID : ℤ
  SITEADDRESS : JSVal
  OWNERNME1 : JSVal
  OWNERNME2 : JSVal
  PARCELID : JSVal
  CLASSDSCRP : JSVal
  PRPRTYDSCRP : JSVal
  RESYRBLT : JSVal
  RESFLRAREA : JSVal
  ASS_SQFT : JSVal
  ASS_DIMS : JSVal
  LNDVALUE : JSVal
  CNTASSDVAL : JSVal
  CNTTXBLVAL : JSVal
  TAXBILLID : JSVal
  BLOCK : JSVal
  LOT : JSVal
  deriving DecidableEq, Repr

/-- A polygon geometry: a list of rings, each ring a list of `[x, y]`
(= `[lng, lat]`) vertex pairs. -/
structure Geometry where
  rings : List (List (ℚ × ℚ))
  deriving DecidableEq, Repr

structure Feature where
  attributes : Attributes
  geometry : Option Geometry
  deriving DecidableEq, Repr

structure Row where
  id : ℤ
  site_address : JSVal
  owner_name1 : JSVal
  owner_name2 : JSVal
  parcel_id : JSVal
  property_type : JSVal
  property_desc : JSVal
  year_built : JSVal
  living_area : JSVal
  lot_sqft : JSVal
  lot_dims : JSVal
  land_value : JSVal
  assessed_value : JSVal
  taxable_value : JSVal
  tax_bill_id : JSVal
  block : JSVal
  lot : JSVal
  centroid_lat : Option ℚ
  centroid_lng : Option ℚ
  polygon_coords : Option (List (ℚ × ℚ))
  deriving DecidableEq, Repr

/-- Definition `transformFeature` from the script.  The geometry branch mirrors

```js
if (feature.geometry && feature.geometry.rings && feature.geometry.rings.length > 0) {
  const ring = feature.geometry.rings[0];
  if (ring.length > 0) {
    const sumX = ring.reduce((s, pt) => s + pt[0], 0);
    const sumY = ring.reduce((s, pt) => s + pt[1], 0);
    centroid_lng = sumX / ring.length;
    centroid_lat = sumY / ring.length;
    polygon_coords = ring.map(pt => [pt[1], pt[0]]);
  }
}
```

and the field list mirrors the returned object literal (`a.X || null` is
`jsOr a.X .null`; `a.ASS_SQFT != null ? String(a.ASS_SQFT) : null` is the
conditional on `lot_sqft`).  The Lean function is total over `Feature`,
mirroring that the JS function performs no failing operation on any feature
that has an attribute object. -/
def transformFeature (feature : Feature) : Row :=
  let a := feature.attributes
  let geo : Option ℚ × Option ℚ × Option (List (ℚ × ℚ)) :=
    match feature.geometry with
    | some g =>
        if g.rings.length > 0 then
          let ring := g.rings.headI
          if ring.length > 0 then
            let sumX := ring.foldl (fun s pt => s + pt.1) 0
            let sumY := ring.foldl (fun s pt => s + pt.2) 0
            (some (sumY / ring.length), some (sumX / ring.length),
              some (ring.map fun pt => (pt.2, pt.1)))
          else (none, none, none)
        else (none, none, none)
    | none => (none, none, none)
  { id := a.OBJECTID
    site_address := jsOr a.SITEADDRESS .null
    owner_name1 := jsOr a.OWNERNME1 .null
    owner_name2 := jsOr a.OWNERNME2 .null
    parcel_id := jsOr a.PARCELID .null
    property_type := jsOr a.CLASSDSCRP .null
    property_desc := jsOr a.PRPRTYDSCRP .null
    year_built := jsOr a.RESYRBLT .null
    living_area := jsOr a.RESFLRAREA .null
    lot_sqft := if a.ASS_SQFT ≠ .null then .str a.ASS_SQFT.stringOf else .null
    lot_dims := jsOr a.ASS_DIMS .null
    land_value := jsOr a.LNDVALUE .null
    assessed_value := jsOr a.CNTASSDVAL .null
    taxable_value := jsOr a.CNTTXBLVAL .null
    tax_bill_id := jsOr a.TAXBILLID .null
    block := jsOr a.BLOCK .null
    lot := jsOr a.LOT .null
    centroid_lat := geo.1
    centroid_lng := geo.2.1
    polygon_coords := geo.2.2 }

theorem foldl_add_fst (l : List (ℚ × ℚ)) :
    ∀ s : ℚ, l.foldl (fun s pt => s + pt.1) s = s + (l.map Prod.fst).sum := by
  induction l with
  | nil => intro s; simp
  | cons p t ih => intro s; simp [ih, add_assoc]

theorem foldl_add_snd (l : List (ℚ × ℚ)) :
    ∀ s : ℚ, l.foldl (fun s pt => s + pt.2) s = s + (l.map Prod.snd).sum := by
  induction l with
  | nil => intro s; simp
  | cons p t ih => intro s; simp [ih, add_assoc]

/-- Claim C2. For a feature whose geometry carries a non-empty first ring of
`N ≥ 1` vertices (each a `[lng, lat]` pair), `transformFeature` puts the
arithmetic mean of the first components in `centroid_lng`, the arithmetic mean
of the second components in `centroid_lat`, and in `polygon_coords` a list of
length `N` whose `k`-th element is the `k`-th input vertex with its components
swapped. -/
theorem transformFeature_centroid_and_ring (f : Feature) (g : Geometry)
    (rng : List (ℚ × ℚ)) (rest : List (List (ℚ × ℚ)))
    (hg : f.geometry = some g) (hr : g.rings = rng :: rest) (hN : 1 ≤ rng.length) :
    (transformFeature f).centroid_lng = some ((rng.map Prod.fst).sum / rng.length) ∧
    (transformFeature f).centroid_lat = some ((rng.map Prod.snd).sum / rng.length) ∧
    (transformFeature f).polygon_coords = some (rng.map fun pt => (pt.2, pt.1)) ∧
    (∀ pc, (transformFeature f).polygon_coords = some pc →
      pc.length = rng.length ∧
        ∀ (k : ℕ), k < rng.length → pc[k]? = rng[k]?.map fun pt => (pt.2, pt.1)) := by
  have hlen : 0 < rng.length := hN
  simp only [transformFeature, hg, hr]
  simp only [List.headI, List.length_cons, Nat.succ_pos, if_pos, gt_iff_lt, hlen,
    foldl_add_fst, foldl_add_snd, zero_add, if_true]
  refine ⟨trivial, trivial, trivial, ?_⟩
  intro pc hpc
  obtain rfl := Option.some.inj hpc
  refine ⟨by simp, ?_⟩
  intro k hk
  simp [List.getElem?_map]
/-- Spec-side description of what the field mapping actually does: a falsy
attribute (missing/null, `0`, `""`) becomes `null`, a truthy one passes through
unchanged.  Stated separately from `transformFeature` so the per-field theorems
compare the code against this description. -/
def nullIfFalsy (v : JSVal) : JSVal := if v.truthy then v else .null

/-- An attribute set with every optional attribute absent. -/
def blankAttrs : Attributes :=
  { OBJECTID := 0, SITEADDRESS := .null, OWNERNME1 := .null, OWNERNME2 := .null,
    PARCELID := .null, CLASSDSCRP := .null, PRPRTYDSCRP := .null, RESYRBLT := .null,
    RESFLRAREA := .null, ASS_SQFT := .null, ASS_DIMS := .null, LNDVALUE := .null,
    CNTASSDVAL := .null, CNTTXBLVAL := .null, TAXBILLID := .null, BLOCK := .null,
    LOT := .null }

/-- A feature whose site address is present but is the empty string. -/
def emptyAddrFeature : Feature :=
  { attributes := { blankAttrs with SITEADDRESS := .str "" }, geometry := none }

/-- Claim C3, counterexample: `transformFeature` does not map every non-null
attribute 1:1: the empty-string site address (non-null, not missing) comes out
as `null`, because the script uses the JS `||` operator, which collapses every
falsy value — not just missing/null ones — to `null`. -/
theorem transformFeature_not_one_to_one :
    emptyAddrFeature.attributes.SITEADDRESS ≠ JSVal.null ∧
    emptyAddrFeature.geometry = none ∧
    (transformFeature emptyAddrFeature).site_address = JSVal.null ∧
    (transformFeature emptyAddrFeature).site_address ≠
      emptyAddrFeature.attributes.SITEADDRESS := by
  refine ⟨by decide, rfl, ?_, ?_⟩ <;> decide

/-- Claim C3, amended: `transformFeature` is total over features (the Lean
embedding is a total function, mirroring that the JS body performs no failing
operation on a feature with an attribute object), and for a feature with no
geometry it returns null `centroid_lat`, `centroid_lng` and `polygon_coords`;
`id` copies `OBJECTID`; every other field carries the corresponding source
attribute unchanged when that attribute is truthy and `null` when it is falsy
(missing, null, `0`, or the empty string) — except `lot_sqft`, which is the
string rendering of `ASS_SQFT` when `ASS_SQFT` is non-null and `null`
otherwise. -/
theorem transformFeature_no_geometry (f : Feature) (h : f.geometry = none) :
    (transformFeature f).centroid_lat = none ∧
    (transformFeature f).centroid_lng = none ∧
    (transformFeature f).polygon_coords = none ∧
    (transformFeature f).id = f.attributes.OBJECTID ∧
    (transformFeature f).site_address = nullIfFalsy f.attributes.SITEADDRESS ∧
    (transformFeature f).owner_name1 = nullIfFalsy f.attributes.OWNERNME1 ∧
    (transformFeature f).owner_name2 = nullIfFalsy f.attributes.OWNERNME2 ∧
    (transformFeature f).parcel_id = nullIfFalsy f.attributes.PARCELID ∧
    (transformFeature f).property_type = nullIfFalsy f.attributes.CLASSDSCRP ∧
    (transformFeature f).property_desc = nullIfFalsy f.attributes.PRPRTYDSCRP ∧
    (transformFeature f).year_built = nullIfFalsy f.attributes.RESYRBLT ∧
    (transformFeature f).living_area = nullIfFalsy f.attributes.RESFLRAREA ∧
    (transformFeature f).lot_dims = nullIfFalsy f.attributes.ASS_DIMS ∧
    (transformFeature f).land_value = nullIfFalsy f.attributes.LNDVALUE ∧
    (transformFeature f).assessed_value = nullIfFalsy f.attributes.CNTASSDVAL ∧
    (transformFeature f).taxable_value = nullIfFalsy f.attributes.CNTTXBLVAL ∧
    (transformFeature f).tax_bill_id = nullIfFalsy f.attributes.TAXBILLID ∧
    (transformFeature f).block = nullIfFalsy f.attributes.BLOCK ∧
    (transformFeature f).lot = nullIfFalsy f.attributes.LOT ∧
    (transformFeature f).lot_sqft =
      (if f.attributes.ASS_SQFT = .null then .null
       else .str f.attributes.ASS_SQFT.stringOf) := by
  have hmap : ∀ v : JSVal, jsOr v .null = nullIfFalsy v := fun v => rfl
  have hsq : ((if f.attributes.ASS_SQFT ≠ .null then
      JSVal.str f.attributes.ASS_SQFT.stringOf else .null) : JSVal) =
      (if f.attributes.ASS_SQFT = .null then .null
       else .str f.attributes.ASS_SQFT.stringOf) := by
    by_cases hc : f.attributes.ASS_SQFT = .null <;> simp [hc]
  simp only [transformFeature, h, hmap]
  refine ⟨trivial, trivial, trivial, trivial, trivial, trivial, trivial, trivial,
    trivial, trivial, trivial, trivial, trivial, trivial, trivial, trivial,
    trivial, trivial, trivial, hsq⟩

/-- Witness for `transformFeature_no_geometry` at a concrete feature. -/
theorem transformFeature_no_geometry_witness :
    (transformFeature emptyAddrFeature).site_address = JSVal.null ∧
    (transformFeature emptyAddrFeature).centroid_lat = none := by
  have h := transformFeature_no_geometry emptyAddrFeature rfl
  exact ⟨h.2.2.2.2.1.trans (by decide), h.1⟩

/-- Claim C7, counterexample: the claim ties `polygon_coords` to "the geometry
had a non-empty ring", but the script only inspects `rings[0]`: a geometry
whose first ring is empty and whose second ring is non-empty has a non-empty
ring, yet `polygon_coords` comes out null. -/
def multiRingFeature : Feature :=
  { attributes := blankAttrs, geometry := some ⟨[[], [((1 : ℚ), (2 : ℚ))]]⟩ }

theorem multiRing_refutes_presence :
    (∃ g, multiRingFeature.geometry = some g ∧ ∃ r ∈ g.rings, r ≠ []) ∧
    (transformFeature multiRingFeature).polygon_coords = none ∧
    (transformFeature multiRingFeature).centroid_lat = none ∧
    (transformFeature multiRingFeature).centroid_lng = none := by
  refine ⟨⟨⟨[[], [(1, 2)]]⟩, rfl, [(1, 2)], by simp, by simp⟩, ?_, ?_, ?_⟩ <;> decide

/-- Claim C7, amended: for every row produced by `transformFeature`:
`polygon_coords` is non-null iff the source geometry's **first** ring exists
and is non-empty, and `centroid_lat` / `centroid_lng` are non-null iff
`polygon_coords` is. -/
theorem transformFeature_presence (f : Feature) :
    ((transformFeature f).polygon_coords ≠ none ↔
      ∃ g, f.geometry = some g ∧
        ∃ r rest, g.rings = r :: rest ∧ r ≠ []) ∧
    ((transformFeature f).centroid_lat ≠ none ↔
      (transformFeature f).polygon_coords ≠ none) ∧
    ((transformFeature f).centroid_lng ≠ none ↔
      (transformFeature f).polygon_coords ≠ none) := by
  rcases f with ⟨a, geo⟩
  cases geo with
  | none => simp [transformFeature]
  | some g =>
      rcases g with ⟨rs⟩
      cases rs with
      | nil => simp [transformFeature]
      | cons r rest =>
          cases r with
          | nil => simp [transformFeature]
          | cons p t => simp [transformFeature]

/-- Witness for `rangePlanner_correct` at concrete inputs. -/
theorem rangePlanner_correct_witness :
    (buildChunks 100 110 4)[1]? = some (104, 108) ∧
    (buildChunks 100 110 4)[2]? = some (108, 110) := by
  have h := (rangePlanner_correct 100 110 4 (by decide) (by decide)
    (buildChunks 100 110 4) rfl).1
  exact ⟨(h 1).trans (by decide), (h 2).trans (by decide)⟩

/-- The 4-vertex square ring of the spec's end-to-end scenario, in `[lng, lat]`
order. -/
def sqRing : List (ℚ × ℚ) := [(0, 0), (0, 2), (2, 2), (2, 0)]

def squareFeature : Feature :=
  { attributes := blankAttrs, geometry := some ⟨[sqRing]⟩ }

/-- Witness for `transformFeature_centroid_and_ring` on the square ring. -/
theorem transformFeature_centroid_and_ring_witness :
    (transformFeature squareFeature).centroid_lng = some 1 ∧
    (transformFeature squareFeature).centroid_lat = some 1 ∧
    (transformFeature squareFeature).polygon_coords =
      some [(0, 0), (2, 0), (2, 2), (0, 2)] := by
  have h := transformFeature_centroid_and_ring squareFeature ⟨[sqRing]⟩ sqRing []
    rfl rfl (by decide)
  refine ⟨h.1.trans ?_, h.2.1.trans ?_, h.2.2.1.trans (by decide)⟩ <;>
    · congr 1
      simp [sqRing]
      norm_num

/-! ## Range fetcher

`fetchWithRetry` runs up to `retries` attempts.  An attempt's interaction with
the network is abstracted by an oracle `ℕ → Except String ArcResponse` giving
the outcome of each attempt: `.error e` covers a timeout abort, a non-OK HTTP
status (`throw new Error('HTTP ' + status)`), a transport error and a JSON
decode error — all of which land in the same `catch` — and `.ok d` is a decoded
body.  The embedding returns the final result together with the number of
attempts made and the list of backoff waits performed (in milliseconds), in
order. -/

/-- A decoded ArcGIS JSON body: an optional error payload and an optional
`features` list. -/
structure ArcResponse where
  error : Option String
  features : Option (List Feature)
  deriving DecidableEq, Repr

inductive FetchResult where
  /-- case: an attempt returned a decoded body -/
  | success : ArcResponse → FetchResult
  /-- case: the last attempt's error was rethrown -/
  | failure : String → FetchResult
  /-- case: the loop was never entered (`retries < 1`); JS returns `undefined` -/
  | fellThrough : FetchResult
  deriving DecidableEq, Repr

structure RetryTrace where
  result : FetchResult
  attempts : ℕ
  waits : List ℕ
  deriving DecidableEq, Repr

/-- Backoff wait `Math.min(3000 * Math.pow(3, attempt - 1), 90000)` — the wait performed
after failed attempt `attempt`. -/
def backoffWait (attempt : ℕ) : ℕ := min (3000 * 3 ^ (attempt - 1)) 90000

def fetchWithRetryGo (oracle : ℕ → Except String ArcResponse) (retries attempt : ℕ) :
    RetryTrace :=
  if _h : attempt ≤ retries then
    match oracle attempt with
    | .ok d => ⟨.success d, 1, []⟩
    | .error e =>
        if attempt = retries then ⟨.failure e, 1, []⟩
        else
          let rest := fetchWithRetryGo oracle retries (attempt + 1)
          ⟨rest.result, rest.attempts + 1, backoffWait attempt :: rest.waits⟩
  else ⟨.fellThrough, 0, []⟩
termination_by retries + 1 - attempt
decreasing_by omega

def fetchWithRetry (oracle : ℕ → Except String ArcResponse) (retries : ℕ) : RetryTrace :=
  fetchWithRetryGo oracle retries 1

theorem fetchWithRetryGo_all_fail (oracle : ℕ → Except String ArcResponse)
    (retries : ℕ) (e : ℕ → String)
    (hfail : ∀ a, 1 ≤ a → a ≤ retries → oracle a = .error (e a)) :
    ∀ a, 1 ≤ a → a ≤ retries →
      fetchWithRetryGo oracle retries a =
        ⟨.failure (e retries), retries - a + 1, (List.range' a (retries - a)).map backoffWait⟩ := by
  intro a h1 h2
  generalize hd : retries - a = d
  induction d generalizing a with
  | zero =>
      have ha : a = retries := by omega
      subst ha
      rw [fetchWithRetryGo]
      rw [hfail a h1 le_rfl]
      simp [h2]
  | succ d ih =>
      have halt : a < retries := by omega
      rw [fetchWithRetryGo]
      rw [hfail a h1 (le_of_lt halt)]
      have hne : ¬ a = retries := by omega
      simp only [dif_pos h2, if_neg hne]
      rw [ih (a + 1) (by omega) (by omega) (by omega)]
      have hr2 : List.range' a (d + 1) = a :: List.range' (a + 1) d := by
        rw [List.range'_succ]
      simp [hr2]

/-- Claim C4. When every attempt fails, `fetchWithRetry` makes exactly `retries`
attempts (no more), raises exactly one failure (the last attempt's error is
rethrown once — the result is a single `.failure`), and performs exactly
`retries - 1` backoff waits whose `k`-th wait (1-based, the wait between
attempt `k` and attempt `k+1`) is `min (3000 · 3^(k-1)) 90000` — so the waits
are non-decreasing up to the 90000 ms cap. -/
theorem fetchWithRetry_all_fail (oracle : ℕ → Except String ArcResponse)
    (retries : ℕ) (e : ℕ → String) (hr : 1 ≤ retries)
    (hfail : ∀ a, 1 ≤ a → a ≤ retries → oracle a = .error (e a)) :
    (fetchWithRetry oracle retries).result = .failure (e retries) ∧
    (fetchWithRetry oracle retries).attempts = retries ∧
    (fetchWithRetry oracle retries).waits.length = retries - 1 ∧
    (∀ k : ℕ, 1 ≤ k → k ≤ retries - 1 →
      (fetchWithRetry oracle retries).waits[k - 1]? =
        some (min (3000 * 3 ^ (k - 1)) 90000)) ∧
    (∀ (k w w' : ℕ), (fetchWithRetry oracle retries).waits[k]? = some w →
      (fetchWithRetry oracle retries).waits[k + 1]? = some w' → w ≤ w') := by
  have hgo := fetchWithRetryGo_all_fail oracle retries e hfail 1 le_rfl hr
  have htrace : fetchWithRetry oracle retries =
      ⟨.failure (e retries), retries, (List.range' 1 (retries - 1)).map backoffWait⟩ := by
    rw [fetchWithRetry, hgo]
    have : retries - 1 + 1 = retries := by omega
    rw [this]
  rw [htrace]
  have hwget : ∀ k : ℕ, ((List.range' 1 (retries - 1)).map backoffWait)[k]? =
      if k < retries - 1 then some (backoffWait (1 + k)) else none := by
    intro k
    by_cases hk : k < retries - 1
    · rw [List.getElem?_map, List.getElem?_range' 1 1 hk]
      simp [hk]
    · rw [List.getElem?_eq_none (by simpa using Nat.le_of_not_lt hk)]
      simp [hk]
  have hmono : ∀ a b : ℕ, a ≤ b → backoffWait a ≤ backoffWait b := by
    intro a b hab
    exact min_le_min (Nat.mul_le_mul_left _ (Nat.pow_le_pow_right (by norm_num) (by omega))) le_rfl
  refine ⟨rfl, rfl, by simp, ?_, ?_⟩
  · intro k hk1 hk2
    have hklt : k - 1 < retries - 1 := by omega
    show ((List.range' 1 (retries - 1)).map backoffWait)[k - 1]? = _
    rw [hwget (k - 1), if_pos hklt]
    have : 1 + (k - 1) = k := by omega
    rw [this, backoffWait]
  · intro k w w' h1 h2
    have h1' := (hwget k).symm.trans h1
    have h2' := (hwget (k + 1)).symm.trans h2
    by_cases hk1 : k + 1 < retries - 1
    · have hk0 : k < retries - 1 := by omega
      rw [if_pos hk0] at h1'
      rw [if_pos hk1] at h2'
      have hw : w = backoffWait (1 + k) := by exact (Option.some.inj h1').symm
      have hw' : w' = backoffWait (1 + (k + 1)) := by exact (Option.some.inj h2').symm
      subst hw hw'
      exact hmono _ _ (by omega)
    · rw [if_neg hk1] at h2'
      exact absurd h2' (by simp)

/-- Witness for `fetchWithRetry_all_fail`: three attempts, all failing with
`HTTP 500`, give three attempts and the wait list `[3000, 9000]`. -/
theorem fetchWithRetry_all_fail_witness :
    (fetchWithRetry (fun _ => .error "HTTP 500") 3).attempts = 3 ∧
    (fetchWithRetry (fun _ => .error "HTTP 500") 3).waits = [3000, 9000] := by
  have h := fetchWithRetry_all_fail (fun _ => .error "HTTP 500") 3
    (fun _ => "HTTP 500") (by decide) (fun a h1 h2 => rfl)
  have hv : fetchWithRetry (fun _ => .error "HTTP 500") 3 =
      ⟨.failure "HTTP 500", 3, [3000, 9000]⟩ := by
    rw [fetchWithRetry, fetchWithRetryGo, fetchWithRetryGo, fetchWithRetryGo]
    norm_num [backoffWait, min_def]
  exact ⟨h.2.1, by rw [hv]⟩

/-- Definition `fetchRange` from the script: run `fetchWithRetry`, then — outside the
retry loop — throw if the decoded body carries an `error` payload.  The result
also carries over the attempt count and backoff waits of the retry loop. -/

inductive RangeFetchResult where
  /-- case: the decoded body, free of an error payload -/
  | ok : ArcResponse → RangeFetchResult
  /-- case: an error was thrown (either by `fetchWithRetry` or by the payload check) -/
  | err : String → RangeFetchResult
  /-- case: unreachable for `retries ≥ 1` — the retry loop returned `undefined` -/
  | fellThrough : RangeFetchResult
  deriving DecidableEq, Repr

def fetchRange (oracle : ℕ → Except String ArcResponse) (retries : ℕ) :
    RangeFetchResult × ℕ × List ℕ :=
  let t := fetchWithRetry oracle retries
  match t.result with
  | .success d =>
      match d.error with
      | some e => (.err ("ArcGIS error: " ++ e), t.attempts, t.waits)
      | none => (.ok d, t.attempts, t.waits)
  | .failure e => (.err e, t.attempts, t.waits)
  | .fellThrough => (.fellThrough, t.attempts, t.waits)

/-- Claim C9. A first attempt that returns HTTP success but carries an explicit
upstream error payload makes `fetchRange` fail immediately: exactly one
attempt, no backoff waits, one thrown error — because the payload check sits
outside the retry loop.  By contrast (last conjunct), a first attempt that
fails at the transport/HTTP level is retried: with `retries ≥ 2` the loop makes
at least two attempts. -/
theorem fetchRange_error_payload_fails_immediately
    (oracle : ℕ → Except String ArcResponse) (retries : ℕ) (d : ArcResponse) (e : String)
    (hr : 1 ≤ retries) (h1 : oracle 1 = .ok d) (herr : d.error = some e) :
    (fetchRange oracle retries).1 = .err ("ArcGIS error: " ++ e) ∧
    (fetchRange oracle retries).2.1 = 1 ∧
    (fetchRange oracle retries).2.2 = [] ∧
    (∀ (oracle' : ℕ → Except String ArcResponse) (e' : String),
      oracle' 1 = .error e' → 2 ≤ retries →
        2 ≤ (fetchWithRetry oracle' retries).attempts) := by
  have hstep : fetchWithRetry oracle retries = ⟨.success d, 1, []⟩ := by
    rw [fetchWithRetry, fetchWithRetryGo]
    simp only [dif_pos hr, h1]
  refine ⟨?_, ?_, ?_, ?_⟩
  · rw [fetchRange, hstep]
    simp [herr]
  · rw [fetchRange, hstep]
    simp [herr]
  · rw [fetchRange, hstep]
    simp [herr]
  · intro oracle' e' h1' hr2
    have hpos : ∀ a, a ≤ retries →
        1 ≤ (fetchWithRetryGo oracle' retries a).attempts := by
      intro a ha
      rw [fetchWithRetryGo]
      simp only [dif_pos ha]
      cases oracle' a with
      | ok d' => simp
      | error e'' =>
          by_cases hlast : a = retries
          · simp [hlast]
          · simp [hlast]
    rw [fetchWithRetry, fetchWithRetryGo]
    have h1le : 1 ≤ retries := by omega
    simp only [dif_pos h1le, h1']
    have hne : ¬ (1 = retries) := by omega
    rw [if_neg hne]
    show 2 ≤ (fetchWithRetryGo oracle' retries 2).attempts + 1
    have := hpos 2 hr2
    omega

/-- Witness for `fetchRange_error_payload_fails_immediately`: an HTTP-success
body carrying `"token required"` fails at once with one attempt and no waits. -/
theorem fetchRange_error_payload_witness :
    (fetchRange (fun _ => .ok ⟨some "token required", none⟩) 5).1 =
      .err "ArcGIS error: token required" ∧
    (fetchRange (fun _ => .ok ⟨some "token required", none⟩) 5).2.1 = 1 ∧
    (fetchRange (fun _ => .ok ⟨some "token required", none⟩) 5).2.2 = [] := by
  have h := fetchRange_error_payload_fails_immediately
    (fun _ => .ok ⟨some "token required", none⟩) 5 ⟨some "token required", none⟩
    "token required" (by decide) rfl rfl
  exact ⟨h.1, h.2.1, h.2.2.1⟩

/-! ## Batch upserter

The store is a map from `id` to a row together with its `last_updated` stamp
(the schema sets `last_updated` on write; the spec models it as re-stamped on
every write).  `supabase.upsert(batch, { onConflict: 'id' })` replaces the
whole row at a conflicting key, which `upsertOne` mirrors; `upsertRows` walks
the row list in `UPSERT_BATCH`-sized slices (`rows.slice(i, i + UPSERT_BATCH)`)
and writes each slice in order. -/

def Store := ℤ → Option (Row × ℕ)

/-- Write one row at time `t`: full replacement at the row's key. -/
def upsertOne (t : ℕ) (st : Store) (r : Row) : Store :=
  fun k => if k = r.id then some (r, t) else st k

/-- One `supabase.upsert(batch)` call at time `t`. -/
def upsertBatchStore (t : ℕ) (st : Store) (batch : List Row) : Store :=
  batch.foldl (upsertOne t) st

/-- The slicing loop `for (let i = 0; i < rows.length; i += UPSERT_BATCH)`. -/
def toBatches (rows : List Row) : List (List Row) :=
  if h : rows = [] then []
  else rows.take UPSERT_BATCH :: toBatches (rows.drop UPSERT_BATCH)
termination_by rows.length
decreasing_by
  have : 0 < rows.length := List.length_pos.mpr h
  simp [UPSERT_BATCH]
  omega

/-- The store effect of a fully successful `upsertRows rows` call at time `t`. -/
def upsertRowsStore (t : ℕ) (st : Store) (rows : List Row) : Store :=
  (toBatches rows).foldl (upsertBatchStore t) st

theorem upsertBatchStore_append (t : ℕ) (st : Store) (l1 l2 : List Row) :
    upsertBatchStore t st (l1 ++ l2) = upsertBatchStore t (upsertBatchStore t st l1) l2 := by
  simp [upsertBatchStore, List.foldl_append]

theorem upsertRowsStore_eq_batch (t : ℕ) :
    ∀ (rows : List Row) (st : Store), upsertRowsStore t st rows = upsertBatchStore t st rows := by
  have main : ∀ (n : ℕ) (rows : List Row), rows.length ≤ n →
      ∀ st : Store, upsertRowsStore t st rows = upsertBatchStore t st rows := by
    intro n
    induction n with
    | zero =>
        intro rows h st
        have hr : rows = [] := List.eq_nil_of_length_eq_zero (by omega)
        subst hr
        rw [upsertRowsStore, toBatches]
        simp [upsertBatchStore]
    | succ n ih =>
        intro rows h st
        by_cases hr : rows = []
        · subst hr
          rw [upsertRowsStore, toBatches]
          simp [upsertBatchStore]
        · rw [upsertRowsStore, toBatches, dif_neg hr, List.foldl_cons]
          have h500 : UPSERT_BATCH = 500 := rfl
          have hp : 0 < rows.length := List.length_pos.mpr hr
          have hd : (rows.drop UPSERT_BATCH).length ≤ n := by
            rw [List.length_drop]
            omega
          have hstep := ih (rows.drop UPSERT_BATCH) hd
            (upsertBatchStore t st (rows.take UPSERT_BATCH))
          rw [upsertRowsStore] at hstep
          rw [hstep, ← upsertBatchStore_append, List.take_append_drop]
  intro rows st
  exact main rows.length rows le_rfl st

/-- Pointwise characterization of a batch write: the key holds the **last** row
of the batch with that id (re-stamped at `t`), and other keys are untouched. -/
theorem upsertBatchStore_apply (t : ℕ) :
    ∀ (batch : List Row) (st : Store) (k : ℤ),
      upsertBatchStore t st batch k =
        match batch.reverse.find? (fun r => decide (r.id = k)) with
        | some r => some (r, t)
        | none => st k := by
  intro batch
  induction batch with
  | nil => intro st k; rfl
  | cons r rs ih =>
      intro st k
      have hstep : upsertBatchStore t st (r :: rs) = upsertBatchStore t (upsertOne t st r) rs := rfl
      rw [hstep, ih]
      have hrev : (r :: rs).reverse = rs.reverse ++ [r] := by simp
      rw [hrev, List.find?_append]
      cases hf : rs.reverse.find? (fun r' => decide (r'.id = k)) with
      | some r' => simp
      | none =>
          simp only [Option.none_or]
          by_cases hid : r.id = k
          · simp [hid, upsertOne]
          · have : ¬ k = r.id := fun hc => hid hc.symm
            simp [hid, upsertOne, this]

/-- Claim C8. Upsert is idempotent: running `upsertRows` on the same transformed
batch twice (stamps `t1` then `t2`) leaves the store exactly as running it once
(at `t2`) — every field of every row equal, `last_updated` re-stamped — and
keys not named by the batch are untouched. -/
theorem upsertRows_idempotent (rows : List Row) (st : Store) (t1 t2 : ℕ) :
    upsertRowsStore t2 (upsertRowsStore t1 st rows) rows = upsertRowsStore t2 st rows ∧
    (∀ k : ℤ, (∀ r ∈ rows, r.id ≠ k) → upsertRowsStore t2 st rows k = st k) := by
  constructor
  · funext k
    rw [upsertRowsStore_eq_batch, upsertRowsStore_eq_batch, upsertRowsStore_eq_batch]
    rw [upsertBatchStore_apply t2 rows (upsertBatchStore t1 st rows) k,
      upsertBatchStore_apply t2 rows st k]
    cases hf : rows.reverse.find? (fun r => decide (r.id = k)) with
    | some r => simp [hf]
    | none =>
        simp only [hf]
        rw [upsertBatchStore_apply, hf]
  · intro k hk
    rw [upsertRowsStore_eq_batch, upsertBatchStore_apply]
    have hnone : rows.reverse.find? (fun r => decide (r.id = k)) = none := by
      rw [List.find?_eq_none]
      intro r hr
      simp [hk r (List.mem_reverse.mp hr)]
    rw [hnone]

/-- A concrete transformed row used by the witnesses. -/
def wRow : Row :=
  { id := 1, site_address := .str "123 Main St", owner_name1 := .null,
    owner_name2 := .null, parcel_id := .null, property_type := .null,
    property_desc := .null, year_built := .null, living_area := .null,
    lot_sqft := .null, lot_dims := .null, land_value := .null,
    assessed_value := .null, taxable_value := .null, tax_bill_id := .null,
    block := .null, lot := .null, centroid_lat := none, centroid_lng := none,
    polygon_coords := none }

/-- The empty store. -/
def emptyStore : Store := fun _ => none

/-- Witness for `upsertRows_idempotent` on a one-row batch. -/
theorem upsertRows_idempotent_witness :
    upsertRowsStore 2 (upsertRowsStore 1 emptyStore [wRow]) [wRow] =
      upsertRowsStore 2 emptyStore [wRow] ∧
    upsertRowsStore 2 emptyStore [wRow] 99 = none := by
  have h := upsertRows_idempotent [wRow] emptyStore 1 2
  exact ⟨h.1, h.2 99 (by decide)⟩

/-! ## Batch upserter under failure

`upsertRows` with its per-sub-batch retry loop, driven by an oracle
`succ b a : Bool` saying whether attempt `a` (1-based) of sub-batch `b`
(0-based) succeeds.  A successful attempt writes the sub-batch and adds its
length to the running count; after `UPSERT_RETRIES` failed attempts the error
is rethrown, which aborts the remaining sub-batches and discards the count
accumulated so far (`Option.none` in the model).  The store returned reflects
whatever sub-batches were already written before the throw. -/

/-- The attempt loop `for (let attempt = 1; attempt <= UPSERT_RETRIES; ...)`:
`true` iff some attempt in `[a, UPSERT_RETRIES]` succeeds (stopping at the
first success). -/
def firstSuccess (succ : ℕ → ℕ → Bool) (b a : ℕ) : Bool :=
  if _h : a ≤ UPSERT_RETRIES then
    if succ b a then true else firstSuccess succ b (a + 1)
  else false
termination_by UPSERT_RETRIES + 1 - a
decreasing_by omega

def upsertRowsGo (succ : ℕ → ℕ → Bool) (t : ℕ) :
    List (List Row) → ℕ → Store → ℕ → Store × Option ℕ
  | [], _, st, acc => (st, some acc)
  | batch :: rest, b, st, acc =>
      if firstSuccess succ b 1 then
        upsertRowsGo succ t rest (b + 1) (upsertBatchStore t st batch) (acc + batch.length)
      else (st, none)

/-- Run of `upsertRows(rows)` at time `t` against store `st`: final store plus
`some count` on success, `none` when a sub-batch exhausted its retries and the
error propagated. -/
def upsertRowsRun (succ : ℕ → ℕ → Bool) (t : ℕ) (st : Store) (rows : List Row) :
    Store × Option ℕ :=
  upsertRowsGo succ t (toBatches rows) 0 st 0

/-- What `runPipeline` adds to `totalUpserted` for a chunk whose upsert promise
was wrapped in `.catch(err => { ...; return 0 })`. -/
def chunkUpsertContribution (res : Store × Option ℕ) : ℕ :=
  match res.2 with
  | some n => n
  | none => 0

theorem firstSuccess_false (succ : ℕ → ℕ → Bool) (b : ℕ)
    (hf : ∀ a, 1 ≤ a → a ≤ UPSERT_RETRIES → succ b a = false) :
    ∀ a, 1 ≤ a → firstSuccess succ b a = false := by
  intro a
  have hret : UPSERT_RETRIES = 3 := rfl
  generalize hd : UPSERT_RETRIES + 1 - a = d
  induction d generalizing a with
  | zero =>
      intro h1
      rw [firstSuccess]
      have : ¬ a ≤ UPSERT_RETRIES := by omega
      simp [this]
  | succ d ih =>
      intro h1
      rw [firstSuccess]
      have ha : a ≤ UPSERT_RETRIES := by omega
      rw [dif_pos ha, hf a h1 ha]
      simp only [Bool.false_eq_true, if_false]
      exact ih (a + 1) (by omega) (by omega)

theorem upsertRowsGo_partial (succ : ℕ → ℕ → Bool) (t : ℕ) :
    ∀ (bs : List (List Row)) (b0 : ℕ) (st : Store) (acc k : ℕ),
      k < bs.length →
      (∀ j, j < k → firstSuccess succ (b0 + j) 1 = true) →
      firstSuccess succ (b0 + k) 1 = false →
      upsertRowsGo succ t bs b0 st acc =
        (upsertBatchStore t st ((bs.take k).flatten), none) := by
  intro bs
  induction bs with
  | nil =>
      intro b0 st acc k hk _ _
      simp at hk
  | cons batch rest ih =>
      intro b0 st acc k hk hsucc hfail
      cases k with
      | zero =>
          rw [upsertRowsGo]
          have h0 : firstSuccess succ b0 1 = false := by simpa using hfail
          rw [h0]
          simp [upsertBatchStore]
      | succ j =>
          rw [upsertRowsGo]
          have h0 : firstSuccess succ b0 1 = true := by
            have := hsucc 0 (Nat.succ_pos j)
            simpa using this
          rw [h0]
          simp only [if_true]
          rw [ih (b0 + 1) (upsertBatchStore t st batch) (acc + batch.length) j
            (by simpa using Nat.lt_of_succ_lt_succ hk)
            (fun i hi => by
              have := hsucc (i + 1) (Nat.succ_lt_succ hi)
              rwa [show b0 + (i + 1) = b0 + 1 + i by omega] at this)
            (by rwa [show b0 + 1 + j = b0 + (j + 1) by omega])]
          rw [List.take_succ_cons, List.flatten_cons, upsertBatchStore_append]

/-- Claim C10. The function `upsertRows` is not atomic and its count under-reports on failure:
if the first `k` sub-batches of a chunk succeed and sub-batch `k` then
exhausts its `UPSERT_RETRIES` attempts, the rows of the successful sub-batches
remain written in the store, yet the thrown error discards the accumulated
count (`none`), so the coordinator's `.catch(... return 0)` adds `0` to the
reported total for the chunk. -/
theorem upsertRows_partial_failure (succ : ℕ → ℕ → Bool) (t : ℕ) (st : Store)
    (rows : List Row) (k : ℕ) (hk : k < (toBatches rows).length)
    (hsucc : ∀ b, b < k → firstSuccess succ b 1 = true)
    (hfail : ∀ a, 1 ≤ a → a ≤ UPSERT_RETRIES → succ k a = false) :
    (upsertRowsRun succ t st rows).1 =
      upsertBatchStore t st (((toBatches rows).take k).flatten) ∧
    (upsertRowsRun succ t st rows).2 = none ∧
    chunkUpsertContribution (upsertRowsRun succ t st rows) = 0 ∧
    (∀ kid : ℤ, (∃ r ∈ ((toBatches rows).take k).flatten, r.id = kid) →
      (upsertRowsRun succ t st rows).1 kid ≠ none) := by
  have hrun : upsertRowsRun succ t st rows =
      (upsertBatchStore t st (((toBatches rows).take k).flatten), none) := by
    rw [upsertRowsRun]
    exact upsertRowsGo_partial succ t (toBatches rows) 0 st 0 k hk
      (fun j hj => by simpa using hsucc j hj)
      (by simpa using firstSuccess_false succ k hfail 1 le_rfl)
  refine ⟨by rw [hrun], by rw [hrun], by rw [hrun, chunkUpsertContribution], ?_⟩
  intro kid ⟨r, hr, hid⟩
  rw [hrun]
  simp only []
  rw [upsertBatchStore_apply]
  have hsome : (((toBatches rows).take k).flatten.reverse.find?
      (fun r' => decide (r'.id = kid))).isSome := by
    rw [List.find?_isSome]
    exact ⟨r, List.mem_reverse.mpr hr, by simp [hid]⟩
  cases hf : ((toBatches rows).take k).flatten.reverse.find?
      (fun r' => decide (r'.id = kid)) with
  | some r' => simp
  | none => rw [hf] at hsome; simp at hsome

/-- Oracle for the C10 witness: sub-batch 0 always succeeds, every other
sub-batch always fails. -/
def wSucc : ℕ → ℕ → Bool := fun b _ => decide (b = 0)

/-- A list of 501 rows: one full sub-batch of 500 and a trailing sub-batch of 1. -/
def wRows : List Row := List.replicate 501 wRow

theorem wRows_toBatches :
    toBatches wRows = [List.replicate 500 wRow, List.replicate 1 wRow] := by
  rw [toBatches]
  have h1 : ¬ wRows = [] := by simp [wRows]
  rw [dif_neg h1]
  have htake : wRows.take UPSERT_BATCH = List.replicate 500 wRow := by
    rw [wRows, List.take_replicate]
    norm_num [UPSERT_BATCH]
  have hdrop : wRows.drop UPSERT_BATCH = List.replicate 1 wRow := by
    rw [wRows, List.drop_replicate]
    norm_num [UPSERT_BATCH]
  rw [htake, hdrop]
  congr 1
  rw [toBatches]
  have h2 : ¬ List.replicate 1 wRow = [] := by simp
  rw [dif_neg h2]
  have htake2 : (List.replicate 1 wRow).take UPSERT_BATCH = List.replicate 1 wRow := by
    rw [List.take_replicate]
    norm_num [UPSERT_BATCH]
  have hdrop2 : (List.replicate 1 wRow).drop UPSERT_BATCH = [] := by
    rw [List.drop_replicate]
    norm_num [UPSERT_BATCH]
  rw [htake2, hdrop2, toBatches]
  simp

/-- Witness for `upsertRows_partial_failure`: 501 rows, first sub-batch (500
rows) written, second sub-batch exhausts retries; count reported as 0 while the
500 written rows remain in the store. -/
theorem upsertRows_partial_failure_witness :
    (upsertRowsRun wSucc 7 emptyStore wRows).2 = none ∧
    chunkUpsertContribution (upsertRowsRun wSucc 7 emptyStore wRows) = 0 ∧
    (upsertRowsRun wSucc 7 emptyStore wRows).1 1 ≠ none := by
  have h := upsertRows_partial_failure wSucc 7 emptyStore wRows 1
    (by rw [wRows_toBatches]; simp only [List.length_cons, List.length_nil]; omega)
    (by
      intro b hb
      have hb0 : b = 0 := by omega
      subst hb0
      rw [firstSuccess]
      norm_num [UPSERT_RETRIES, wSucc])
    (by intro a h1 h2; simp [wSucc])
  refine ⟨h.2.1, h.2.2.1, ?_⟩
  apply h.2.2.2 1
  rw [wRows_toBatches]
  refine ⟨wRow, ?_, rfl⟩
  simp only [List.take_succ_cons, List.take_zero, List.flatten_cons, List.flatten_nil,
    List.append_nil]
  rw [List.mem_replicate]
  exact ⟨by norm_num, rfl⟩

/-! ## Pipeline coordinator: event trace

`runPipeline` is single-threaded JS with explicit `await`s, so its interleaving
is fixed by the code: in iteration `i` it awaits `fetchRange` for chunk `i`
(on failure it records the chunk and `continue`s — without awaiting the
pending upsert), then awaits the previous chunk's upsert, then — if the fetch
returned features — fires chunk `i`'s upsert in the background; after the loop
it awaits the last pending upsert.

The trace records, in program order: `fstart i` / `fend i` when the fetch for
chunk `i` is issued / settles, `ustart i` when chunk `i`'s upsert promise is
fired, and `uend i` at the point the coordinator awaits that promise — the
latest point at which the upsert can still be running, so an upsert is "in
flight" between its `ustart` and its `uend`.  A fetch's outcome for chunk `i`
is abstracted by `outs i`: `fail` (fetchRange threw), `empty` (no features —
no upsert fired), `ok` (features present — upsert fired). -/

inductive Ev where
  | fstart : ℕ → Ev
  | fend : ℕ → Ev
  | ustart : ℕ → Ev
  | uend : ℕ → Ev
  deriving DecidableEq, Repr

inductive ChunkFetch where
  | fail : ChunkFetch
  | empty : ChunkFetch
  | ok : ChunkFetch
  deriving DecidableEq, Repr

/-- Awaiting the pending upsert (if any): the observation point of its end. -/
def awaitEv : Option ℕ → List Ev
  | none => []
  | some j => [.uend j]

/-- One iteration of the `for (let i = 0; i < chunks.length; i++)` loop of
`runPipeline`, acting on (trace so far, pending upsert). -/
def pipeStep (outs : ℕ → ChunkFetch) (st : List Ev × Option ℕ) (i : ℕ) :
    List Ev × Option ℕ :=
  match outs i with
  | .fail => (st.1 ++ [.fstart i, .fend i], st.2)
  | .empty => (st.1 ++ [.fstart i, .fend i] ++ awaitEv st.2, none)
  | .ok => (st.1 ++ [.fstart i, .fend i] ++ awaitEv st.2 ++ [.ustart i], some i)

/-- The full event trace of `runPipeline` over `n` chunks, including the final
`if (pendingUpsert) { await pendingUpsert }`. -/
def runPipelineTrace (outs : ℕ → ChunkFetch) (n : ℕ) : List Ev :=
  let st := (List.range n).foldl (pipeStep outs) ([], none)
  st.1 ++ awaitEv st.2

/-- The pending upsert at the start of iteration `i`. -/
def pendAt (outs : ℕ → ChunkFetch) : ℕ → Option ℕ
  | 0 => none
  | i + 1 =>
      match outs i with
      | .fail => pendAt outs i
      | .empty => none
      | .ok => some i

/-- The events emitted during iteration `i`. -/
def segEv (outs : ℕ → ChunkFetch) (i : ℕ) : List Ev :=
  match outs i with
  | .fail => [.fstart i, .fend i]
  | .empty => [.fstart i, .fend i] ++ awaitEv (pendAt outs i)
  | .ok => [.fstart i, .fend i] ++ awaitEv (pendAt outs i) ++ [.ustart i]

def traceBody (outs : ℕ → ChunkFetch) (n : ℕ) : List Ev :=
  ((List.range n).map (segEv outs)).flatten

theorem traceBody_succ (outs : ℕ → ChunkFetch) (n : ℕ) :
    traceBody outs (n + 1) = traceBody outs n ++ segEv outs n := by
  simp [traceBody, List.range_succ]

theorem foldl_pipeStep (outs : ℕ → ChunkFetch) :
    ∀ n : ℕ, (List.range n).foldl (pipeStep outs) ([], none) =
      (traceBody outs n, pendAt outs n) := by
  intro n
  induction n with
  | zero => simp [traceBody, pendAt]
  | succ n ih =>
      rw [List.range_succ, List.foldl_append, ih]
      simp only [List.foldl_cons, List.foldl_nil]
      rw [pipeStep]
      cases h : outs n <;>
        simp [h, traceBody_succ, segEv, pendAt]

theorem runPipelineTrace_eq (outs : ℕ → ChunkFetch) (n : ℕ) :
    runPipelineTrace outs n = traceBody outs n ++ awaitEv (pendAt outs n) := by
  rw [runPipelineTrace, foldl_pipeStep]

theorem pendAt_some (outs : ℕ → ChunkFetch) :
    ∀ i j : ℕ, pendAt outs i = some j → j < i ∧ outs j = .ok := by
  intro i
  induction i with
  | zero => intro j h; simp [pendAt] at h
  | succ i ih =>
      intro j h
      rw [pendAt] at h
      cases ho : outs i with
      | fail =>
          rw [ho] at h
          have := ih j h
          exact ⟨by omega, this.2⟩
      | empty => rw [ho] at h; simp at h
      | ok =>
          rw [ho] at h
          have hj : j = i := by simpa using h.symm
          subst hj
          exact ⟨by omega, ho⟩

/-- A fired upsert either is still pending at `j`, or was awaited during some
iteration `m` strictly between `i` and `j` whose fetch did not fail. -/
theorem pend_propagate (outs : ℕ → ChunkFetch) (i : ℕ) (hok : outs i = .ok) :
    ∀ j : ℕ, i < j →
      pendAt outs j = some i ∨
        ∃ m : ℕ, i < m ∧ m < j ∧ outs m ≠ .fail ∧ pendAt outs m = some i := by
  intro j
  induction j with
  | zero => intro h; omega
  | succ j ih =>
      intro hij
      by_cases hji : i = j
      · subst hji
        left
        rw [pendAt, hok]
      · have hij' : i < j := by omega
        rcases ih hij' with hp | ⟨m, h1, h2, h3, h4⟩
        · cases ho : outs j with
          | fail =>
              left
              rw [pendAt, ho]
              exact hp
          | empty =>
              right
              exact ⟨j, hij', by omega, by simp [ho], hp⟩
          | ok =>
              right
              exact ⟨j, hij', by omega, by simp [ho], hp⟩
        · right
          exact ⟨m, h1, by omega, h3, h4⟩

theorem count_awaitEv_uend (p : Option ℕ) (m : ℕ) :
    (awaitEv p).count (.uend m) = if p = some m then 1 else 0 := by
  cases p with
  | none => simp [awaitEv]
  | some j =>
      simp only [awaitEv, List.count_singleton]
      by_cases h : j = m
      · simp [h]
      · simp [h, Ne.symm h]

theorem count_awaitEv_other (p : Option ℕ) (e : Ev) (he : ∀ j : ℕ, e ≠ .uend j) :
    (awaitEv p).count e = 0 := by
  cases p with
  | none => simp [awaitEv]
  | some j =>
      simp only [awaitEv, List.count_singleton]
      simp [(he j).symm]

theorem count_fstart_seg (outs : ℕ → ChunkFetch) (i m : ℕ) :
    (segEv outs i).count (.fstart m) = if m = i then 1 else 0 := by
  have ha := count_awaitEv_other (pendAt outs i) (Ev.fstart m) (by intro j h; cases h)
  by_cases h : m = i
  · subst h
    cases ho : outs m <;> simp [segEv, ho, List.count_append, List.count_cons, ha]
  · cases ho : outs i <;> simp [segEv, ho, List.count_append, List.count_cons, ha, h]

theorem count_fend_seg (outs : ℕ → ChunkFetch) (i m : ℕ) :
    (segEv outs i).count (.fend m) = if m = i then 1 else 0 := by
  have ha := count_awaitEv_other (pendAt outs i) (Ev.fend m) (by intro j h; cases h)
  by_cases h : m = i
  · subst h
    cases ho : outs m <;> simp [segEv, ho, List.count_append, List.count_cons, ha]
  · cases ho : outs i <;> simp [segEv, ho, List.count_append, List.count_cons, ha, h]

theorem count_ustart_seg (outs : ℕ → ChunkFetch) (i m : ℕ) :
    (segEv outs i).count (.ustart m) =
      if m = i ∧ outs i = .ok then 1 else 0 := by
  have ha := count_awaitEv_other (pendAt outs i) (Ev.ustart m) (by intro j h; cases h)
  by_cases h : m = i
  · subst h
    cases ho : outs m <;> simp [segEv, ho, List.count_append, List.count_cons, ha]
  · cases ho : outs i <;> simp [segEv, ho, List.count_append, List.count_cons, ha, h]

theorem count_uend_seg (outs : ℕ → ChunkFetch) (i m : ℕ) :
    (segEv outs i).count (.uend m) =
      if pendAt outs i = some m ∧ outs i ≠ .fail then 1 else 0 := by
  cases ho : outs i with
  | fail =>
      have hs : segEv outs i = [.fstart i, .fend i] := by rw [segEv, ho]
      rw [hs]
      simp [ho]
  | empty =>
      have hs : segEv outs i = [.fstart i, .fend i] ++ awaitEv (pendAt outs i) := by
        rw [segEv, ho]
      rw [hs, List.count_append, count_awaitEv_uend]
      have h2 : List.count (Ev.uend m) [Ev.fstart i, Ev.fend i] = 0 := by simp
      rw [h2]
      by_cases h : pendAt outs i = some m <;> simp [h, ho]
  | ok =>
      have hs : segEv outs i =
          [.fstart i, .fend i] ++ awaitEv (pendAt outs i) ++ [.ustart i] := by
        rw [segEv, ho]
      rw [hs, List.count_append, List.count_append, count_awaitEv_uend]
      have h2 : List.count (Ev.uend m) [Ev.fstart i, Ev.fend i] = 0 := by simp
      have h3 : List.count (Ev.uend m) [Ev.ustart i] = 0 := by simp
      rw [h2, h3]
      by_cases h : pendAt outs i = some m <;> simp [h, ho]

theorem count_fstart_body (outs : ℕ → ChunkFetch) (m : ℕ) :
    ∀ n : ℕ, (traceBody outs n).count (.fstart m) = if m < n then 1 else 0 := by
  intro n
  induction n with
  | zero => simp [traceBody]
  | succ n ih =>
      rw [traceBody_succ, List.count_append, ih, count_fstart_seg]
      split_ifs <;> omega

theorem count_fend_body (outs : ℕ → ChunkFetch) (m : ℕ) :
    ∀ n : ℕ, (traceBody outs n).count (.fend m) = if m < n then 1 else 0 := by
  intro n
  induction n with
  | zero => simp [traceBody]
  | succ n ih =>
      rw [traceBody_succ, List.count_append, ih, count_fend_seg]
      split_ifs <;> omega

theorem count_ustart_body (outs : ℕ → ChunkFetch) (m : ℕ) :
    ∀ n : ℕ, (traceBody outs n).count (.ustart m) =
      if m < n ∧ outs m = .ok then 1 else 0 := by
  intro n
  induction n with
  | zero => simp [traceBody]
  | succ n ih =>
      rw [traceBody_succ, List.count_append, ih, count_ustart_seg]
      by_cases hm : m = n
      · subst hm
        by_cases ho : outs m = .ok <;> simp [ho, Nat.lt_irrefl]
      · simp only [hm, false_and, if_false, Nat.add_zero]
        by_cases h1 : m < n ∧ outs m = ChunkFetch.ok
        · rw [if_pos h1, if_pos ⟨Nat.lt_succ_of_lt h1.1, h1.2⟩]
        · rw [if_neg h1, if_neg (fun hc => h1 ⟨by omega, hc.2⟩)]

theorem count_uend_full (outs : ℕ → ChunkFetch) (m : ℕ) :
    ∀ n : ℕ, (traceBody outs n ++ awaitEv (pendAt outs n)).count (.uend m) =
      if m < n ∧ outs m = .ok then 1 else 0 := by
  intro n
  induction n with
  | zero => simp [traceBody, pendAt, awaitEv]
  | succ n ih =>
      rw [List.count_append, traceBody_succ, List.count_append]
      rw [List.count_append] at ih
      cases ho : outs n with
      | fail =>
          have hseg : (segEv outs n).count (.uend m) = 0 := by
            rw [count_uend_seg]
            simp [ho]
          have hpend : pendAt outs (n + 1) = pendAt outs n := by
            rw [pendAt, ho]
          rw [hseg, hpend]
          have hcond : (m < n + 1 ∧ outs m = .ok) ↔ (m < n ∧ outs m = .ok) := by
            constructor
            · rintro ⟨h1, h2⟩
              refine ⟨?_, h2⟩
              rcases Nat.lt_succ_iff_lt_or_eq.mp h1 with h | h
              · exact h
              · subst h; rw [ho] at h2; cases h2
            · rintro ⟨h1, h2⟩; exact ⟨by omega, h2⟩
          rw [if_congr hcond rfl rfl, ← ih]
          omega
      | empty =>
          have hseg : (segEv outs n).count (.uend m) =
              (awaitEv (pendAt outs n)).count (.uend m) := by
            rw [count_uend_seg, count_awaitEv_uend]
            simp [ho]
          have hpend : pendAt outs (n + 1) = none := by rw [pendAt, ho]
          rw [hseg, hpend]
          have hcond : (m < n + 1 ∧ outs m = .ok) ↔ (m < n ∧ outs m = .ok) := by
            constructor
            · rintro ⟨h1, h2⟩
              refine ⟨?_, h2⟩
              rcases Nat.lt_succ_iff_lt_or_eq.mp h1 with h | h
              · exact h
              · subst h; rw [ho] at h2; cases h2
            · rintro ⟨h1, h2⟩; exact ⟨by omega, h2⟩
          rw [if_congr hcond rfl rfl, ← ih]
          simp [awaitEv]
      | ok =>
          have hseg : (segEv outs n).count (.uend m) =
              (awaitEv (pendAt outs n)).count (.uend m) := by
            rw [count_uend_seg, count_awaitEv_uend]
            by_cases h : pendAt outs n = some m <;> simp [h, ho]
          have hpend : pendAt outs (n + 1) = some n := by rw [pendAt, ho]
          rw [hseg, hpend, count_awaitEv_uend (some n) m]
          by_cases hm : m = n
          · subst hm
            have h0 : (traceBody outs m).count (.uend m) +
                (awaitEv (pendAt outs m)).count (.uend m) = 0 := by
              rw [ih]
              simp
            have hc : m < m + 1 ∧ outs m = ChunkFetch.ok := ⟨by omega, ho⟩
            rw [if_pos rfl, if_pos hc]
            omega
          · have hsm : ¬ (some n = some m) := by
              intro hc
              exact hm (Option.some.inj hc).symm
            rw [if_neg hsm]
            have hcond : (m < n + 1 ∧ outs m = ChunkFetch.ok) ↔
                (m < n ∧ outs m = ChunkFetch.ok) := by
              constructor
              · rintro ⟨h1, h2⟩; exact ⟨by omega, h2⟩
              · rintro ⟨h1, h2⟩; exact ⟨by omega, h2⟩
            rw [if_congr hcond rfl rfl, ← ih]
            omega

theorem mem_traceBody {outs : ℕ → ChunkFetch} {a : Ev} {i n : ℕ}
    (hi : i < n) (ha : a ∈ segEv outs i) : a ∈ traceBody outs n :=
  List.mem_flatten_of_mem (List.mem_map_of_mem _ (List.mem_range.mpr hi)) ha

theorem sublist_pair_cross {outs : ℕ → ChunkFetch} {i j n : ℕ} {a b : Ev}
    (hij : i < j) (hj : j < n)
    (ha : a ∈ segEv outs i) (hb : b ∈ segEv outs j) :
    [a, b].Sublist (traceBody outs n) := by
  have H : ∀ m : ℕ, j < m → [a, b].Sublist (traceBody outs m) := by
    intro m
    induction m with
    | zero => intro h; omega
    | succ m ih =>
        intro hjm
        rw [traceBody_succ]
        by_cases h : j < m
        · exact (ih h).trans (List.sublist_append_left _ _)
        · have hjn : j = m := by omega
          subst hjn
          have h1 : [a].Sublist (traceBody outs j) :=
            List.singleton_sublist.mpr (mem_traceBody hij ha)
          have h2 : [b].Sublist (segEv outs j) := List.singleton_sublist.mpr hb
          simpa using h1.append h2
  exact H n hj

theorem sublist_pair_within {outs : ℕ → ChunkFetch} {i n : ℕ} {l : List Ev}
    (hi : i < n) (hl : l.Sublist (segEv outs i)) :
    l.Sublist (traceBody outs n) := by
  have H : ∀ m : ℕ, i < m → l.Sublist (traceBody outs m) := by
    intro m
    induction m with
    | zero => intro h; omega
    | succ m ih =>
        intro him
        rw [traceBody_succ]
        by_cases h : i < m
        · exact (ih h).trans (List.sublist_append_left _ _)
        · have hin : i = m := by omega
          subst hin
          exact hl.trans (List.sublist_append_right _ _)
  exact H n hi

theorem fstart_mem_seg (outs : ℕ → ChunkFetch) (i : ℕ) :
    Ev.fstart i ∈ segEv outs i := by
  cases ho : outs i <;> simp [segEv, ho]

theorem fend_mem_seg (outs : ℕ → ChunkFetch) (i : ℕ) :
    Ev.fend i ∈ segEv outs i := by
  cases ho : outs i <;> simp [segEv, ho]

theorem ustart_mem_seg {outs : ℕ → ChunkFetch} {i : ℕ} (h : outs i = .ok) :
    Ev.ustart i ∈ segEv outs i := by
  simp [segEv, h]

theorem uend_mem_seg {outs : ℕ → ChunkFetch} {m j : ℕ}
    (hp : pendAt outs m = some j) (hne : outs m ≠ .fail) :
    Ev.uend j ∈ segEv outs m := by
  cases ho : outs m with
  | fail => exact absurd ho hne
  | empty => simp [segEv, ho, hp, awaitEv]
  | ok => simp [segEv, ho, hp, awaitEv]

theorem fs_fe_sublist_seg (outs : ℕ → ChunkFetch) (i : ℕ) :
    [Ev.fstart i, Ev.fend i].Sublist (segEv outs i) := by
  cases ho : outs i with
  | fail =>
      rw [segEv, ho]
  | empty =>
      rw [segEv, ho]
      exact List.sublist_append_left _ _
  | ok =>
      rw [segEv, ho]
      exact (List.sublist_append_left _ _).trans (List.sublist_append_left _ _)

/-- Claim C5. Scheduling discipline of `runPipeline`, over the event trace fixed
by the code's `await` structure.  An operation is in flight from its start
event to its end event; `uend i` marks the point where the coordinator awaits
upsert `i` — the latest point it can still be running, so these orderings bound
every admissible completion.  The conjuncts state: each chunk's fetch is
issued and settles exactly once (counts 1); an upsert is fired and awaited
exactly once, precisely for chunks fetched `ok`; a fetch settles before the
next fetch is issued, in ascending chunk order — never two fetches in flight;
upsert `i` is awaited before upsert `j > i` is fired — never two upserts in
flight, and upserts are fired in the order their chunks were fetched; and for
each fired upsert `i`, the fetch for chunk `i+1` is issued after `ustart i`
and before `uend i` — the coordinator starts the next fetch without waiting
for upsert `i`, awaiting it only later. -/
theorem runPipeline_pipeline_discipline (outs : ℕ → ChunkFetch) (n : ℕ) :
    let t := runPipelineTrace outs n
    (∀ i : ℕ, i < n → t.count (.fstart i) = 1 ∧ t.count (.fend i) = 1) ∧
    (∀ i : ℕ, t.count (.ustart i) = if i < n ∧ outs i = .ok then 1 else 0) ∧
    (∀ i : ℕ, t.count (.uend i) = if i < n ∧ outs i = .ok then 1 else 0) ∧
    (∀ i : ℕ, i < n → [Ev.fstart i, Ev.fend i].Sublist t) ∧
    (∀ i j : ℕ, i < j → j < n → [Ev.fend i, Ev.fstart j].Sublist t) ∧
    (∀ i j : ℕ, i < j → j < n → outs i = .ok → outs j = .ok →
      [Ev.uend i, Ev.ustart j].Sublist t) ∧
    (∀ i : ℕ, i + 1 < n → outs i = .ok →
      [Ev.ustart i, Ev.fstart (i + 1)].Sublist t ∧
      [Ev.fstart (i + 1), Ev.uend i].Sublist t) := by
  intro t
  have hfull : t = traceBody outs n ++ awaitEv (pendAt outs n) :=
    runPipelineTrace_eq outs n
  have hext : ∀ l : List Ev, l.Sublist (traceBody outs n) → l.Sublist t := by
    intro l hl
    rw [hfull]
    exact hl.trans (List.sublist_append_left _ _)
  refine ⟨?_, ?_, ?_, ?_, ?_, ?_, ?_⟩
  · intro i hi
    rw [hfull]
    constructor
    · rw [List.count_append, count_fstart_body,
        count_awaitEv_other _ _ (by intro j h; cases h)]
      simp [hi]
    · rw [List.count_append, count_fend_body,
        count_awaitEv_other _ _ (by intro j h; cases h)]
      simp [hi]
  · intro i
    rw [hfull, List.count_append, count_ustart_body,
      count_awaitEv_other _ _ (by intro j h; cases h)]
    omega
  · intro i
    rw [hfull]
    exact count_uend_full outs i n
  · intro i hi
    exact hext _ (sublist_pair_within hi (fs_fe_sublist_seg outs i))
  · intro i j hij hj
    exact hext _ (sublist_pair_cross hij hj (fend_mem_seg outs i) (fstart_mem_seg outs j))
  · intro i j hij hj hoki hokj
    rcases pend_propagate outs i hoki j hij with hp | ⟨m, h1, h2, h3, h4⟩
    · have hseg : segEv outs j = [Ev.fstart j, Ev.fend j, Ev.uend i, Ev.ustart j] := by
        rw [segEv, hokj, hp]
        rfl
      refine hext _ (sublist_pair_within hj ?_)
      rw [hseg]
      exact ((List.Sublist.refl [Ev.uend i, Ev.ustart j]).cons
        (Ev.fend j)).cons (Ev.fstart j)
    · exact hext _ (sublist_pair_cross h2 hj (uend_mem_seg h4 h3) (ustart_mem_seg hokj))
  · intro i hi hok
    constructor
    · exact hext _ (sublist_pair_cross (by omega) hi (ustart_mem_seg hok)
        (fstart_mem_seg outs (i + 1)))
    · rcases pend_propagate outs i hok n (by omega) with hp | ⟨m, h1, h2, h3, h4⟩
      · rw [hfull, hp]
        have h1 : [Ev.fstart (i + 1)].Sublist (traceBody outs n) :=
          List.singleton_sublist.mpr (mem_traceBody hi (fstart_mem_seg outs (i + 1)))
        have h2 : [Ev.uend i].Sublist (awaitEv (some i)) := List.Sublist.refl _
        simpa using h1.append h2
      · by_cases hm : m = i + 1
        · subst hm
          refine hext _ (sublist_pair_within h2 ?_)
          cases ho : outs (i + 1) with
          | fail => exact absurd ho h3
          | empty =>
              have hseg : segEv outs (i + 1) =
                  [Ev.fstart (i + 1), Ev.fend (i + 1), Ev.uend i] := by
                rw [segEv, ho, h4]
                rfl
              rw [hseg]
              exact ((List.Sublist.refl [Ev.uend i]).cons
                (Ev.fend (i + 1))).cons₂ (Ev.fstart (i + 1))
          | ok =>
              have hseg : segEv outs (i + 1) =
                  [Ev.fstart (i + 1), Ev.fend (i + 1), Ev.uend i, Ev.ustart (i + 1)] := by
                rw [segEv, ho, h4]
                rfl
              rw [hseg]
              exact ((((List.nil_sublist [Ev.ustart (i + 1)]).cons₂ (Ev.uend i)).cons
                (Ev.fend (i + 1))).cons₂ (Ev.fstart (i + 1)))
        · exact hext _ (sublist_pair_cross (by omega) h2
            (fstart_mem_seg outs (i + 1)) (uend_mem_seg h4 h3))

/-- Outcomes for the C5 witness: chunk 1's fetch fails, the others succeed
with features. -/
def wOuts : ℕ → ChunkFetch := fun i => if i = 1 then .fail else .ok

/-- Witness for `runPipeline_pipeline_discipline` on a 3-chunk run with a
failing middle fetch. -/
theorem runPipeline_pipeline_discipline_witness :
    (runPipelineTrace wOuts 3).count (.fstart 1) = 1 ∧
    [Ev.ustart 0, Ev.fstart 1].Sublist (runPipelineTrace wOuts 3) ∧
    [Ev.fstart 1, Ev.uend 0].Sublist (runPipelineTrace wOuts 3) ∧
    [Ev.uend 0, Ev.ustart 2].Sublist (runPipelineTrace wOuts 3) := by
  have h := runPipeline_pipeline_discipline wOuts 3
  exact ⟨(h.1 1 (by decide)).1,
    (h.2.2.2.2.2.2 0 (by decide) (by decide)).1,
    (h.2.2.2.2.2.2 0 (by decide) (by decide)).2,
    h.2.2.2.2.2.1 0 2 (by decide) (by decide) (by decide) (by decide)⟩

/-! ## Failure bookkeeping: first pass and second pass

The first pass is `runPipeline`'s `failedChunks` accounting: a fetch failure
pushes the chunk at its own iteration; an upsert failure is pushed by the
`.catch` attached to the background promise, observed when the coordinator
awaits it (at the next non-failing fetch, or after the loop).  `uok i` says
whether chunk `i`'s `upsertRows` promise resolves; `uok i = false` abstracts
`upsertRows` throwing after exhausting retries on some sub-batch — possibly
after earlier sub-batches were already written (see
`upsertRows_partial_failure`) — and the **whole** chunk is then recorded.

The second pass is `main`'s retry loop over `failedChunks`: for each failed
chunk, wait 30000 ms, then fetch + upsert once synchronously; chunks that fail
again go to `stillFailed`, which `main` then reports — nothing retries them
further. -/

/-- Pending upsert (chunk index, will-it-resolve) at the start of iteration
`i`. -/
def pendAtU (outs : ℕ → ChunkFetch) (uok : ℕ → Bool) : ℕ → Option (ℕ × Bool)
  | 0 => none
  | i + 1 =>
      match outs i with
      | .fail => pendAtU outs uok i
      | .empty => none
      | .ok => some (i, uok i)

/-- Awaiting the pending upsert: a rejected one pushes its chunk onto
`failedChunks` (the `.catch` handler). -/
def resolvePending (st : List ℕ × Option (ℕ × Bool)) : List ℕ :=
  match st.2 with
  | some (j, false) => st.1 ++ [j]
  | _ => st.1

def pass1Step (outs : ℕ → ChunkFetch) (uok : ℕ → Bool)
    (st : List ℕ × Option (ℕ × Bool)) (i : ℕ) : List ℕ × Option (ℕ × Bool) :=
  match outs i with
  | .fail => (st.1 ++ [i], st.2)
  | .empty => (resolvePending st, none)
  | .ok => (resolvePending st, some (i, uok i))

/-- The failedChunks list returned by `runPipeline` after `n` chunks
(including the final await of the last pending upsert). -/
def pass1Failed (outs : ℕ → ChunkFetch) (uok : ℕ → Bool) (n : ℕ) : List ℕ :=
  resolvePending ((List.range n).foldl (pass1Step outs uok) ([], none))

theorem pendAtU_some (outs : ℕ → ChunkFetch) (uok : ℕ → Bool) :
    ∀ i j b, pendAtU outs uok i = some (j, b) →
      j < i ∧ outs j = .ok ∧ b = uok j := by
  intro i
  induction i with
  | zero => intro j b h; simp [pendAtU] at h
  | succ i ih =>
      intro j b h
      rw [pendAtU] at h
      cases ho : outs i with
      | fail =>
          rw [ho] at h
          have := ih j b h
          exact ⟨by omega, this.2⟩
      | empty => rw [ho] at h; simp at h
      | ok =>
          rw [ho] at h
          have hj : j = i ∧ b = uok i := by
            have := Option.some.inj h
            exact ⟨congrArg Prod.fst this |>.symm, congrArg Prod.snd this |>.symm⟩
          obtain ⟨hj1, hj2⟩ := hj
          subst hj1
          exact ⟨by omega, ho, hj2⟩

theorem pass1_state (outs : ℕ → ChunkFetch) (uok : ℕ → Bool) :
    ∀ n : ℕ, ((List.range n).foldl (pass1Step outs uok) ([], none)).2 =
      pendAtU outs uok n := by
  intro n
  induction n with
  | zero => simp [pendAtU]
  | succ n ih =>
      rw [List.range_succ, List.foldl_append, List.foldl_cons, List.foldl_nil]
      rw [pass1Step, pendAtU]
      cases ho : outs n <;> simp [ho, ih]

/-- The condition under which chunk `i` is recorded as failed by the first
pass. -/
def failedP (outs : ℕ → ChunkFetch) (uok : ℕ → Bool) (i : ℕ) : Prop :=
  outs i = .fail ∨ (outs i = .ok ∧ uok i = false)

instance (outs : ℕ → ChunkFetch) (uok : ℕ → Bool) (i : ℕ) :
    Decidable (failedP outs uok i) := by
  unfold failedP
  infer_instance

theorem resolve_count_aux (outs : ℕ → ChunkFetch) (uok : ℕ → Bool) (n i : ℕ)
    (hcount : ∀ i : ℕ,
      ((List.range n).foldl (pass1Step outs uok) ([], none)).1.count i =
        if i < n ∧ failedP outs uok i ∧ pendAtU outs uok n ≠ some (i, false) then 1
        else 0) :
    (resolvePending ((List.range n).foldl (pass1Step outs uok) ([], none))).count i =
      if i < n ∧ failedP outs uok i then 1 else 0 := by
  have hstate := pass1_state outs uok n
  rw [resolvePending, hstate]
  cases hp : pendAtU outs uok n with
  | none =>
      rw [hp] at hcount
      simp only [hcount i]
      have hcong : (i < n ∧ failedP outs uok i ∧ (none : Option (ℕ × Bool)) ≠ some (i, false)) ↔
          (i < n ∧ failedP outs uok i) := by
        constructor
        · rintro ⟨h1, h2, _⟩; exact ⟨h1, h2⟩
        · rintro ⟨h1, h2⟩; exact ⟨h1, h2, by simp⟩
      rw [if_congr hcong rfl rfl]
  | some jb =>
      obtain ⟨j, b⟩ := jb
      rw [hp] at hcount
      have hjs := pendAtU_some outs uok n j b hp
      cases b with
      | true =>
          simp only [hcount i]
          have hcong : (i < n ∧ failedP outs uok i ∧
              (some (j, true) : Option (ℕ × Bool)) ≠ some (i, false)) ↔
              (i < n ∧ failedP outs uok i) := by
            constructor
            · rintro ⟨h1, h2, _⟩; exact ⟨h1, h2⟩
            · rintro ⟨h1, h2⟩; exact ⟨h1, h2, by simp⟩
          rw [if_congr hcong rfl rfl]
      | false =>
          rw [List.count_append, hcount i]
          by_cases hij : i = j
          · subst hij
            have hfp : failedP outs uok i := Or.inr ⟨hjs.2.1, hjs.2.2.symm⟩
            rw [if_neg (by
              rintro ⟨_, _, h3⟩
              exact h3 rfl)]
            rw [if_pos ⟨hjs.1, hfp⟩]
            simp
          · have hcong : (i < n ∧ failedP outs uok i ∧
                (some (j, false) : Option (ℕ × Bool)) ≠ some (i, false)) ↔
                (i < n ∧ failedP outs uok i) := by
              constructor
              · rintro ⟨h1, h2, _⟩; exact ⟨h1, h2⟩
              · rintro ⟨h1, h2⟩
                refine ⟨h1, h2, ?_⟩
                intro hc
                exact hij (congrArg Prod.fst (Option.some.inj hc)).symm
            rw [if_congr hcong rfl rfl]
            have : List.count i [j] = 0 := by simp [hij]
            rw [this]
            omega

theorem pass1_count (outs : ℕ → ChunkFetch) (uok : ℕ → Bool) :
    ∀ (n i : ℕ), ((List.range n).foldl (pass1Step outs uok) ([], none)).1.count i =
      if i < n ∧ failedP outs uok i ∧ pendAtU outs uok n ≠ some (i, false) then 1
      else 0 := by
  intro n
  induction n with
  | zero =>
      intro i
      simp [pendAtU]
  | succ n ih =>
      intro i
      rw [List.range_succ, List.foldl_append, List.foldl_cons, List.foldl_nil]
      rw [pass1Step]
      cases ho : outs n with
      | fail =>
          simp only [ho]
          rw [List.count_append, ih i]
          have hpend : pendAtU outs uok (n + 1) = pendAtU outs uok n := by
            rw [pendAtU, ho]
          rw [hpend]
          by_cases hin : i = n
          · subst hin
            have hp : failedP outs uok i := Or.inl ho
            have hnp : pendAtU outs uok i ≠ some (i, false) := by
              intro hc
              have := pendAtU_some outs uok i i false hc
              omega
            rw [if_neg (by rintro ⟨h1, _, _⟩; omega), if_pos ⟨by omega, hp, hnp⟩]
            simp
          · have hcong : (i < n + 1 ∧ failedP outs uok i ∧
                pendAtU outs uok n ≠ some (i, false)) ↔
                (i < n ∧ failedP outs uok i ∧
                  pendAtU outs uok n ≠ some (i, false)) := by
              constructor
              · rintro ⟨h1, h2, h3⟩; exact ⟨by omega, h2, h3⟩
              · rintro ⟨h1, h2, h3⟩; exact ⟨by omega, h2, h3⟩
            rw [if_congr hcong rfl rfl]
            have : List.count i [n] = 0 := by simp [hin]
            rw [this]
            omega
      | empty =>
          simp only [ho]
          rw [resolve_count_aux outs uok n i ih]
          have hpend : pendAtU outs uok (n + 1) = none := by rw [pendAtU, ho]
          rw [hpend]
          have hcong : (i < n + 1 ∧ failedP outs uok i ∧
              (none : Option (ℕ × Bool)) ≠ some (i, false)) ↔
              (i < n ∧ failedP outs uok i) := by
            constructor
            · rintro ⟨h1, h2, _⟩
              refine ⟨?_, h2⟩
              rcases Nat.lt_succ_iff_lt_or_eq.mp h1 with h | h
              · exact h
              · subst h
                rcases h2 with h2 | h2
                · rw [ho] at h2; cases h2
                · rw [ho] at h2; cases h2.1
            · rintro ⟨h1, h2⟩; exact ⟨by omega, h2, by simp⟩
          rw [if_congr hcong rfl rfl]
      | ok =>
          simp only [ho]
          rw [resolve_count_aux outs uok n i ih]
          have hpend : pendAtU outs uok (n + 1) = some (n, uok n) := by
            rw [pendAtU, ho]
          rw [hpend]
          have hcong : (i < n + 1 ∧ failedP outs uok i ∧
              (some (n, uok n) : Option (ℕ × Bool)) ≠ some (i, false)) ↔
              (i < n ∧ failedP outs uok i) := by
            constructor
            · rintro ⟨h1, h2, h3⟩
              refine ⟨?_, h2⟩
              rcases Nat.lt_succ_iff_lt_or_eq.mp h1 with h | h
              · exact h
              · subst h
                rcases h2 with h2 | h2
                · rw [ho] at h2; cases h2
                · exfalso
                  apply h3
                  rw [h2.2]
            · rintro ⟨h1, h2⟩
              refine ⟨by omega, h2, ?_⟩
              intro hc
              have : n = i := congrArg Prod.fst (Option.some.inj hc)
              omega
          rw [if_congr hcong rfl rfl]

/-- Count of each chunk in the first pass's `failedChunks` list. -/
theorem pass1Failed_count (outs : ℕ → ChunkFetch) (uok : ℕ → Bool) (n i : ℕ) :
    (pass1Failed outs uok n).count i =
      if i < n ∧ failedP outs uok i then 1 else 0 :=
  resolve_count_aux outs uok n i (pass1_count outs uok n)

/-- Whether a chunk fails again on its single second-pass attempt (fetch
throws, or features present and `upsertRows` throws; an empty result
succeeds). -/
def failsPass2 (outs2 : ℕ → ChunkFetch) (uok2 : ℕ → Bool) (i : ℕ) : Bool :=
  match outs2 i with
  | .fail => true
  | .empty => false
  | .ok => !uok2 i

/-- One iteration of `main`'s retry loop over `failedChunks`: wait 30000 ms,
attempt fetch+upsert once, push still-failing chunks onto `stillFailed`.  The
first component records `(wait, chunk)` per attempt. -/
def retryStep (outs2 : ℕ → ChunkFetch) (uok2 : ℕ → Bool)
    (st : List (ℕ × ℕ) × List ℕ) (i : ℕ) : List (ℕ × ℕ) × List ℕ :=
  let attempts := st.1 ++ [(30000, i)]
  match outs2 i with
  | .fail => (attempts, st.2 ++ [i])
  | .empty => (attempts, st.2)
  | .ok => if uok2 i then (attempts, st.2) else (attempts, st.2 ++ [i])

def retryFailedChunks (outs2 : ℕ → ChunkFetch) (uok2 : ℕ → Bool)
    (failed : List ℕ) : List (ℕ × ℕ) × List ℕ :=
  failed.foldl (retryStep outs2 uok2) ([], [])

/-- After the second pass, `main` reassigns `failedChunks = stillFailed` and
reports that list; no further retries happen. -/
def mainFailedAfterBothPasses (outs : ℕ → ChunkFetch) (uok : ℕ → Bool)
    (outs2 : ℕ → ChunkFetch) (uok2 : ℕ → Bool) (n : ℕ) : List ℕ :=
  (retryFailedChunks outs2 uok2 (pass1Failed outs uok n)).2

theorem retryFold_eq (outs2 : ℕ → ChunkFetch) (uok2 : ℕ → Bool) :
    ∀ (failed : List ℕ) (st : List (ℕ × ℕ) × List ℕ),
      failed.foldl (retryStep outs2 uok2) st =
        (st.1 ++ failed.map (fun i => (30000, i)),
          st.2 ++ failed.filter (failsPass2 outs2 uok2)) := by
  intro failed
  induction failed with
  | nil => intro st; simp
  | cons i rest ih =>
      intro st
      rw [List.foldl_cons, retryStep]
      cases ho : outs2 i with
      | fail =>
          simp only [ho]
          rw [ih]
          have hf : failsPass2 outs2 uok2 i = true := by simp [failsPass2, ho]
          simp [hf]
      | empty =>
          simp only [ho]
          rw [ih]
          have hf : failsPass2 outs2 uok2 i = false := by simp [failsPass2, ho]
          simp [hf]
      | ok =>
          simp only [ho]
          cases hu : uok2 i with
          | true =>
              simp only [hu, if_true]
              rw [ih]
              have hf : failsPass2 outs2 uok2 i = false := by simp [failsPass2, ho, hu]
              simp [hf]
          | false =>
              simp only [hu, Bool.false_eq_true, if_false]
              rw [ih]
              have hf : failsPass2 outs2 uok2 i = true := by simp [failsPass2, ho, hu]
              simp [hf]

/-- Claim C6. Failure bookkeeping across both passes.  A fetch or upsert failure
never aborts the first pass: every one of the `n` chunks still has its fetch
issued exactly once (first conjunct, over the C5 trace).  The first pass
records exactly the chunks whose fetch threw or whose upsert promise rejected
— the whole chunk, once, even when the rejection came after some sub-batches
were written (`uok i = false` abstracts that; see `upsertRows_partial_failure`).
The second pass performs exactly one `(30000 ms cool-down, attempt)` per failed
chunk, in order; the chunks still failing afterwards are exactly the filter of
the failed list under the second-pass outcome, each listed at most once; and
the final reported list is that still-failed list — the model retries nothing
further. -/
theorem runPipeline_failure_bookkeeping (outs : ℕ → ChunkFetch) (uok : ℕ → Bool)
    (outs2 : ℕ → ChunkFetch) (uok2 : ℕ → Bool) (n : ℕ) :
    let failed := pass1Failed outs uok n
    let second := retryFailedChunks outs2 uok2 failed
    (∀ i : ℕ, i < n → (runPipelineTrace outs n).count (.fstart i) = 1) ∧
    (∀ i : ℕ, failed.count i =
      if i < n ∧ (outs i = .fail ∨ (outs i = .ok ∧ uok i = false)) then 1 else 0) ∧
    (∀ i : ℕ, i ∈ failed ↔
      (i < n ∧ (outs i = .fail ∨ (outs i = .ok ∧ uok i = false)))) ∧
    second.1 = failed.map (fun i => (30000, i)) ∧
    second.2 = failed.filter (failsPass2 outs2 uok2) ∧
    (∀ i : ℕ, second.2.count i ≤ 1) ∧
    mainFailedAfterBothPasses outs uok outs2 uok2 n = second.2 := by
  intro failed second
  have hcount : ∀ i : ℕ, failed.count i =
      if i < n ∧ failedP outs uok i then 1 else 0 :=
    fun i => pass1Failed_count outs uok n i
  have hsecond : second = (failed.map (fun i => (30000, i)),
      failed.filter (failsPass2 outs2 uok2)) := by
    show retryFailedChunks outs2 uok2 failed = _
    rw [retryFailedChunks, retryFold_eq]
    simp
  refine ⟨?_, hcount, ?_, ?_, ?_, ?_, ?_⟩
  · intro i hi
    rw [runPipelineTrace_eq, List.count_append, count_fstart_body,
      count_awaitEv_other _ _ (by intro j h; cases h)]
    simp [hi]
  · intro i
    rw [← List.count_pos_iff, hcount i]
    split_ifs with h
    · exact ⟨fun _ => h, fun _ => Nat.one_pos⟩
    · exact ⟨fun hc => absurd hc (by omega), fun hd => absurd hd h⟩
  · rw [hsecond]
  · rw [hsecond]
  · intro i
    have hsub : second.2.Sublist failed := by
      rw [hsecond]
      exact List.filter_sublist _
    calc second.2.count i ≤ failed.count i := hsub.count_le i
      _ ≤ 1 := by rw [hcount i]; split_ifs <;> omega
  · rfl

/-- First-pass outcomes for the C6 witness: chunk 1's fetch fails, chunk 2's
upsert rejects, the rest succeed. -/
def wP1Outs : ℕ → ChunkFetch := fun i => if i = 1 then .fail else .ok

def wP1Uok : ℕ → Bool := fun i => decide (i ≠ 2)

/-- Second-pass outcomes: chunk 1 fails again, everything else succeeds. -/
def wP2Outs : ℕ → ChunkFetch := fun i => if i = 1 then .fail else .ok

def wP2Uok : ℕ → Bool := fun _ => true

/-- Witness for `runPipeline_failure_bookkeeping` on a 4-chunk run: the first
pass records chunks 1 (fetch failure) and 2 (upsert failure); the second pass
attempts each exactly once after a 30 s cool-down; only chunk 1 remains in the
final reported list. -/
theorem runPipeline_failure_bookkeeping_witness :
    pass1Failed wP1Outs wP1Uok 4 = [1, 2] ∧
    (retryFailedChunks wP2Outs wP2Uok (pass1Failed wP1Outs wP1Uok 4)).1 =
      [(30000, 1), (30000, 2)] ∧
    mainFailedAfterBothPasses wP1Outs wP1Uok wP2Outs wP2Uok 4 = [1] := by
  have h := runPipeline_failure_bookkeeping wP1Outs wP1Uok wP2Outs wP2Uok 4
  have hlist : pass1Failed wP1Outs wP1Uok 4 = [1, 2] := by decide
  refine ⟨hlist, ?_, ?_⟩
  · exact (h.2.2.2.1).trans (by rw [hlist]; decide)
  · exact (h.2.2.2.2.2.2).trans ((h.2.2.2.2.1).trans (by rw [hlist]; decide))

end Parcels
